import Mathlib

/-!
Verification of the aggregation core of the metrics-aggregator proxy
(main.go): the grouping engine `aggregateMetrics`, the per-family
pipeline `processAndSend`, and the `add-labelValue` flag parsing in
`main`.

Modelling decisions:

* Numeric observation values (Go `float64`) are modelled as rationals;
  the properties checked here are exact-arithmetic grouping and
  conservation laws, and the spec treats floating-point rounding as an
  accepted deviation rather than part of the contract.
* Go maps (`map[string]float64`, `map[string]string`, and
  `map[string]map[string]string`) are modelled as association lists
  with unique keys kept in insertion order: `upsert` overwrites an
  existing binding in place or appends a new one, `mapFind` returns
  the first (hence only) binding.  Go map iteration order in
  `processAndSend` is determinized to insertion order; every property
  below is insensitive to that order.
* `prometheus.NewConstMetric` validation (label-name syntax checks
  performed by the external client library, not by this repository)
  is modelled as always succeeding, so emitted series correspond
  one-to-one to aggregated groups.
-/

namespace Aggregator

/-- One name/value label of an observation (dto.LabelPair). -/
structure LabelPair where
  name : String
  value : String
deriving DecidableEq

/-- The value field of a dto.Metric as produced by the text decoder:
exactly one of the gauge, counter or untyped variants is set. -/
inductive MetricValue where
  | gauge (v : ℚ)
  | counter (v : ℚ)
  | untyped (v : ℚ)
deriving DecidableEq

/-- One observation (dto.Metric): its label pairs and its value field.
Timestamps are never read by the aggregation code and are omitted. -/
structure Metric where
  label : List LabelPair
  value : MetricValue
deriving DecidableEq

/-- Go `metric.GetGauge()` viewed as an option (nil or the value). -/
def Metric.getGauge : Metric → Option ℚ
  | ⟨_, .gauge v⟩ => some v
  | _ => none

/-- Go `metric.GetCounter()` viewed as an option (nil or the value). -/
def Metric.getCounter : Metric → Option ℚ
  | ⟨_, .counter v⟩ => some v
  | _ => none

/-- The numeric value an observation carries, whatever its kind. -/
def Metric.numValue : Metric → ℚ
  | ⟨_, .gauge v⟩ => v
  | ⟨_, .counter v⟩ => v
  | ⟨_, .untyped v⟩ => v

/-- The value `aggregateMetrics` actually accumulates for an
observation: gauge and counter values; untyped values are never read
by the loop body. -/
def Metric.accValue : Metric → ℚ
  | ⟨_, .gauge v⟩ => v
  | ⟨_, .counter v⟩ => v
  | ⟨_, .untyped _⟩ => 0

/-- Whether the observation carries a gauge or a counter value. -/
def Metric.hasNum : Metric → Bool
  | ⟨_, .untyped _⟩ => false
  | _ => true

/-- Go map assignment `m[k] = v`: overwrite the existing binding in
place, or append a fresh one at the end. -/
def upsert {β : Type} : List (String × β) → String → β → List (String × β)
  | [], k, v => [(k, v)]
  | p :: t, k, v => if p.1 = k then (k, v) :: t else p :: upsert t k v

/-- Go map lookup `m[k]` returning an option. -/
def mapFind {β : Type} : List (String × β) → String → Option β
  | [], _ => none
  | p :: t, k => if p.1 = k then some p.2 else mapFind t k

/-- Go map lookup `m[k]` with the type's zero value as default. -/
def findD {β : Type} (m : List (String × β)) (k : String) (d : β) : β :=
  (mapFind m k).getD d

/-- Sum of all values held in a map. -/
def sumVals (m : List (String × ℚ)) : ℚ :=
  (m.map Prod.snd).sum

/-- The keys of the map are pairwise distinct. -/
def NodupKeys {β : Type} (m : List (String × β)) : Prop :=
  (m.map Prod.fst).Nodup

/-- Body of the label loop of `aggregateMetrics`: a label whose name is
in the drop list is skipped, any other label extends both the key
string (`key += name + "=" + value + ","`) and the filtered label map
(`filteredLabels[name] = value`). -/
def filterStep (drop : List String) (acc : String × List (String × String))
    (lp : LabelPair) : String × List (String × String) :=
  if drop.contains lp.name then acc
  else (acc.1 ++ lp.name ++ "=" ++ lp.value ++ ",", upsert acc.2 lp.name lp.value)

/-- The key string and filtered label map built from one observation's
label list by the label loop of `aggregateMetrics`. -/
def buildGroup (drop : List String) (labels : List LabelPair) :
    String × List (String × String) :=
  List.foldl (filterStep drop) ("", []) labels

/-- The group key of an observation's label list. -/
def groupKey (labels : List LabelPair) (drop : List String) : String :=
  (buildGroup drop labels).1

/-- The filtered (retained) label map of an observation's label list. -/
def filteredMap (labels : List LabelPair) (drop : List String) :
    List (String × String) :=
  (buildGroup drop labels).2

/-- The pair of maps returned by `aggregateMetrics`. -/
structure AggResult where
  aggregatedLabels : List (String × List (String × String))
  aggregatedValue : List (String × ℚ)
deriving DecidableEq

/-- One iteration of the metric loop of `aggregateMetrics`: store the
filtered labels under the key, then add the gauge value if a gauge is
present, else the counter value if a counter is present, else leave
the value map untouched. -/
def aggStep (drop : List String) (acc : AggResult) (m : Metric) : AggResult :=
  let kf := buildGroup drop m.label
  let labels := upsert acc.aggregatedLabels kf.1 kf.2
  match m.getGauge with
  | some v =>
      ⟨labels, upsert acc.aggregatedValue kf.1 (findD acc.aggregatedValue kf.1 0 + v)⟩
  | none =>
      match m.getCounter with
      | some v =>
          ⟨labels, upsert acc.aggregatedValue kf.1 (findD acc.aggregatedValue kf.1 0 + v)⟩
      | none => ⟨labels, acc.aggregatedValue⟩

/-- `aggregateMetrics` from main.go: fold the metric loop over the
observation list, starting from two empty maps. -/
def aggregateMetrics (metrics : List Metric) (aggregateWithOutLabels : List String) :
    AggResult :=
  List.foldl (aggStep aggregateWithOutLabels) ⟨[], []⟩ metrics

/-- Metric family kinds of dto.MetricType read by `processAndSend`. -/
inductive MetricType where
  | counter
  | gauge
  | summary
  | untyped
  | histogram
deriving DecidableEq

/-- A decoded metric family (dto.MetricFamily). -/
structure MetricFamily where
  name : String
  help : String
  type : MetricType
  metric : List Metric
deriving DecidableEq

/-- The configuration fields of RemoteAggregator used by
`processAndSend` (the source field `addPrefix` is called `addPfx`
here). -/
structure Config where
  includeMetrics : List String
  aggregateWithOutLabels : List String
  addPfx : String
  addLabels : List (String × String)
deriving DecidableEq

/-- The prometheus value kind attached to an emitted const metric. -/
inductive ValueKind where
  | counterV
  | gaugeV
  | untypedV
deriving DecidableEq

/-- One series sent on the channel by `processAndSend`: the descriptor
data (name, help, labels) together with the value kind and value. -/
structure EmittedMetric where
  name : String
  help : String
  labels : List (String × String)
  kind : ValueKind
  value : ℚ
deriving DecidableEq

/-- Go `maps.Copy(dst, src)`: insert every binding of src into dst,
overwriting bindings whose key already exists. -/
def mapsCopy (dst src : List (String × String)) : List (String × String) :=
  List.foldl (fun d p => upsert d p.1 p.2) dst src

/-- `processAndSend` from main.go: suppress the family when a
non-empty include list lacks its name; otherwise apply the name
prefix, aggregate, and emit one series per aggregated value, with the
configured extra labels copied over the retained labels and the kind
chosen by the family-type switch. -/
def processAndSend (ra : Config) (fam : MetricFamily) : List EmittedMetric :=
  if 0 < ra.includeMetrics.length ∧ fam.name ∉ ra.includeMetrics then []
  else
    let outName := if ra.addPfx ≠ "" then ra.addPfx ++ fam.name else fam.name
    let agg := aggregateMetrics fam.metric ra.aggregateWithOutLabels
    List.map
      (fun kv =>
        ⟨outName, fam.help,
         mapsCopy (findD agg.aggregatedLabels kv.1 []) ra.addLabels,
         (match fam.type with
          | .gauge => ValueKind.gaugeV
          | .counter => ValueKind.counterV
          | _ => ValueKind.untypedV),
         kv.2⟩)
      agg.aggregatedValue

/-- Recursive core of Go `strings.Split(s, sep)` for a one-character
separator: returns the first segment and the list of later segments. -/
def splitAux (c : Char) : List Char → List Char × List (List Char)
  | [] => ([], [])
  | a :: t =>
    let r := splitAux c t
    if a = c then ([], r.1 :: r.2) else (a :: r.1, r.2)

/-- Go `strings.Split(s, string(c))` on the character list of `s`. -/
def splitChar (c : Char) (l : List Char) : List (List Char) :=
  (splitAux c l).1 :: (splitAux c l).2

/-- One iteration of the `add-labelValue` loop in `main`: split the
pair on "=", and record a label only when the split has exactly two
segments. -/
def addLabelStep (m : List (String × String)) (pair : String) :
    List (String × String) :=
  match splitChar '=' pair.data with
  | [k, v] => upsert m (String.mk k) (String.mk v)
  | _ => m

/-- The `add-labelValue` parsing loop in `main`. -/
def buildAddLabels (pairs : List String) : List (String × String) :=
  List.foldl addLabelStep [] pairs

/-- Surviving label pairs of an observation: those whose name is not
in the drop list, in original order (specification-side view of the
label loop). -/
def filteredPairs (labels : List LabelPair) (drop : List String) : List LabelPair :=
  List.filter (fun lp => !(drop.contains lp.name)) labels

/-- Key-string extension by one label pair. -/
def serStep (s : String) (lp : LabelPair) : String :=
  s ++ lp.name ++ "=" ++ lp.value ++ ","

/-- Serialization of a label-pair list into a key string. -/
def serializeKey (pairs : List LabelPair) : String :=
  List.foldl serStep "" pairs

/-- Go map extension by one label pair. -/
def mapStep (m : List (String × String)) (lp : LabelPair) : List (String × String) :=
  upsert m lp.name lp.value

/-- Label pairs folded into a Go map, in order. -/
def buildMap (pairs : List LabelPair) : List (String × String) :=
  List.foldl mapStep [] pairs

/-- Key-string and label-map extension by one surviving label pair. -/
def plainStep (acc : String × List (String × String)) (lp : LabelPair) :
    String × List (String × String) :=
  (acc.1 ++ lp.name ++ "=" ++ lp.value ++ ",", upsert acc.2 lp.name lp.value)

/-- The last observation of the list whose group key is `key`. -/
def lastByKey (ms : List Metric) (drop : List String) (key : String) : Option Metric :=
  List.find? (fun m => groupKey m.label drop == key) ms.reverse

/-- The observations of the list that contribute to the accumulated
value of `key`: group key matches and a gauge or counter is present. -/
def contribs (ms : List Metric) (drop : List String) (key : String) : List Metric :=
  List.filter (fun m => (groupKey m.label drop == key) && m.hasNum) ms

/-- The emitted value kind as a function of the family kind (the
switch statement of `processAndSend`). -/
def emittedKind : MetricType → ValueKind
  | .gauge => ValueKind.gaugeV
  | .counter => ValueKind.counterV
  | _ => ValueKind.untypedV

/-- Left-biased choice on options. -/
def optOr {β : Type} : Option β → Option β → Option β
  | some x, _ => some x
  | none, b => b

/-- Test vector from TestAggregateMetricss, case "matching-one". -/
example :
    aggregateMetrics
      [⟨[⟨"l1", "v1"⟩], .counter 10⟩,
       ⟨[⟨"l1", "v1"⟩, ⟨"l2", "v2"⟩], .counter 20⟩,
       ⟨[⟨"l1", "v1"⟩, ⟨"l2", "v2"⟩, ⟨"l3", "v3"⟩], .counter 30⟩] ["l3"] =
    ⟨[("l1=v1,", [("l1", "v1")]),
      ("l1=v1,l2=v2,", [("l1", "v1"), ("l2", "v2")])],
     [("l1=v1,", 10), ("l1=v1,l2=v2,", 50)]⟩ := by
  simp [aggregateMetrics, aggStep, buildGroup, filterStep, upsert, mapFind, findD,
    Metric.getGauge, Metric.getCounter, List.foldl]
  try norm_num

/-- Test vector from TestAggregateMetricss, case "matching-all". -/
example :
    aggregateMetrics
      [⟨[⟨"l1", "v1"⟩], .counter 10⟩,
       ⟨[⟨"l1", "v1"⟩, ⟨"l2", "v2"⟩], .counter 20⟩,
       ⟨[⟨"l1", "v1"⟩, ⟨"l2", "v2"⟩, ⟨"l3", "v3"⟩], .counter 30⟩] ["l1"] =
    ⟨[("", []), ("l2=v2,", [("l2", "v2")]),
      ("l2=v2,l3=v3,", [("l2", "v2"), ("l3", "v3")])],
     [("", 10), ("l2=v2,", 20), ("l2=v2,l3=v3,", 30)]⟩ := by
  simp [aggregateMetrics, aggStep, buildGroup, filterStep, upsert, mapFind, findD,
    Metric.getGauge, Metric.getCounter, List.foldl]
  try norm_num


theorem optOr_none {β : Type} (a : Option β) : optOr a none = a := by
  cases a <;> rfl

theorem find?_append {α : Type} (p : α → Bool) (l₁ l₂ : List α) :
    List.find? p (l₁ ++ l₂) = optOr (List.find? p l₁) (List.find? p l₂) := by
  induction l₁ with
  | nil => simp [optOr]
  | cons a t ih =>
      by_cases h : p a
      · simp [List.find?_cons_of_pos, h, optOr]
      · simp [List.find?_cons_of_neg, h, ih]

theorem mapFind_upsert {β : Type} (m : List (String × β)) (k k' : String) (v : β) :
    mapFind (upsert m k v) k' = if k' = k then some v else mapFind m k' := by
  induction m with
  | nil =>
      by_cases h : k' = k
      · simp [upsert, mapFind, h]
      · simp [upsert, mapFind, h, Ne.symm h]
  | cons p t ih =>
      by_cases hp : p.1 = k
      · by_cases h : k' = k
        · simp [upsert, mapFind, hp, h]
        · have hk : ¬k = k' := fun hh => h hh.symm
          have hpk : ¬p.1 = k' := by rw [hp]; exact hk
          simp [upsert, mapFind, hp, h, hk, hpk]
      · by_cases hq : p.1 = k'
        · have hk : ¬k' = k := by rw [← hq]; exact hp
          simp [upsert, mapFind, hp, hq, hk]
        · simp [upsert, mapFind, hp, hq, ih]

theorem sumVals_upsert (m : List (String × ℚ)) (k : String) (v : ℚ) :
    sumVals (upsert m k (findD m k 0 + v)) = sumVals m + v := by
  induction m with
  | nil => simp [upsert, sumVals, findD, mapFind]
  | cons p t ih =>
      by_cases hp : p.1 = k
      · simp [upsert, sumVals, findD, mapFind, hp]
        ring
      · have : findD (p :: t) k 0 = findD t k 0 := by simp [findD, mapFind, hp]
        simp [upsert, sumVals, findD, mapFind, hp] at ih ⊢
        rw [ih]
        ring

theorem foldl_filterStep (drop : List String) (labels : List LabelPair)
    (acc : String × List (String × String)) :
    List.foldl (filterStep drop) acc labels =
      List.foldl plainStep acc (filteredPairs labels drop) := by
  induction labels generalizing acc with
  | nil => simp [filteredPairs]
  | cons lp t ih =>
      by_cases h : lp.name ∈ drop
      · have h1 : filterStep drop acc lp = acc := by simp [filterStep, h]
        have h2 : filteredPairs (lp :: t) drop = filteredPairs t drop := by
          simp [filteredPairs, List.filter_cons, h]
        rw [List.foldl_cons, h1, h2]
        exact ih acc
      · have h1 : filterStep drop acc lp = plainStep acc lp := by
          simp [filterStep, plainStep, h]
        have h2 : filteredPairs (lp :: t) drop = lp :: filteredPairs t drop := by
          simp [filteredPairs, List.filter_cons, h]
        rw [List.foldl_cons, h1, h2, List.foldl_cons]
        exact ih (plainStep acc lp)

theorem foldl_plainStep (pairs : List LabelPair) (acc : String × List (String × String)) :
    List.foldl plainStep acc pairs =
      (List.foldl serStep acc.1 pairs, List.foldl mapStep acc.2 pairs) := by
  induction pairs generalizing acc with
  | nil => simp
  | cons lp t ih => simp [plainStep, serStep, mapStep, ih]

theorem buildGroup_eq (drop : List String) (labels : List LabelPair) :
    buildGroup drop labels =
      (serializeKey (filteredPairs labels drop), buildMap (filteredPairs labels drop)) := by
  rw [buildGroup, foldl_filterStep, foldl_plainStep]
  rfl

theorem groupKey_eq (labels : List LabelPair) (drop : List String) :
    groupKey labels drop = serializeKey (filteredPairs labels drop) := by
  rw [groupKey, buildGroup_eq]

theorem filteredMap_eq (labels : List LabelPair) (drop : List String) :
    filteredMap labels drop = buildMap (filteredPairs labels drop) := by
  rw [filteredMap, buildGroup_eq]

theorem optOr_assoc {β : Type} (a b c : Option β) :
    optOr (optOr a b) c = optOr a (optOr b c) := by
  cases a <;> rfl

theorem optOr_map {β γ : Type} (f : β → γ) (a b : Option β) :
    (optOr a b).map f = optOr (a.map f) (b.map f) := by
  cases a <;> rfl

theorem findD_upsert {β : Type} (m : List (String × β)) (k k' : String) (v d : β) :
    findD (upsert m k v) k' d = if k' = k then v else findD m k' d := by
  rw [findD, mapFind_upsert]
  split <;> rfl

theorem aggStep_labels (drop : List String) (acc : AggResult) (m : Metric) :
    (aggStep drop acc m).aggregatedLabels =
      upsert acc.aggregatedLabels (groupKey m.label drop) (filteredMap m.label drop) := by
  obtain ⟨ls, mv⟩ := m
  cases mv <;> rfl

theorem aggStep_value_gauge (drop : List String) (acc : AggResult) (ls : List LabelPair)
    (v : ℚ) :
    (aggStep drop acc ⟨ls, .gauge v⟩).aggregatedValue =
      upsert acc.aggregatedValue (groupKey ls drop)
        (findD acc.aggregatedValue (groupKey ls drop) 0 + v) := rfl

theorem aggStep_value_counter (drop : List String) (acc : AggResult) (ls : List LabelPair)
    (v : ℚ) :
    (aggStep drop acc ⟨ls, .counter v⟩).aggregatedValue =
      upsert acc.aggregatedValue (groupKey ls drop)
        (findD acc.aggregatedValue (groupKey ls drop) 0 + v) := rfl

theorem aggStep_value_untyped (drop : List String) (acc : AggResult) (ls : List LabelPair)
    (v : ℚ) :
    (aggStep drop acc ⟨ls, .untyped v⟩).aggregatedValue = acc.aggregatedValue := rfl

theorem sumVals_foldl (drop : List String) (ms : List Metric) (acc : AggResult) :
    sumVals (List.foldl (aggStep drop) acc ms).aggregatedValue =
      sumVals acc.aggregatedValue + (ms.map Metric.accValue).sum := by
  induction ms generalizing acc with
  | nil => simp
  | cons m t ih =>
      obtain ⟨ls, mv⟩ := m
      rw [List.foldl_cons, ih]
      cases mv with
      | gauge v =>
          rw [aggStep_value_gauge, sumVals_upsert]
          simp [Metric.accValue]
          ring
      | counter v =>
          rw [aggStep_value_counter, sumVals_upsert]
          simp [Metric.accValue]
          ring
      | untyped v =>
          rw [aggStep_value_untyped]
          simp [Metric.accValue]

theorem aggLabels_foldl (drop : List String) (ms : List Metric) (acc : AggResult)
    (key : String) :
    mapFind (List.foldl (aggStep drop) acc ms).aggregatedLabels key =
      optOr ((lastByKey ms drop key).map (fun x => filteredMap x.label drop))
        (mapFind acc.aggregatedLabels key) := by
  induction ms generalizing acc with
  | nil => simp [lastByKey, optOr]
  | cons m t ih =>
      rw [List.foldl_cons, ih]
      have hstep : mapFind (aggStep drop acc m).aggregatedLabels key =
          optOr ((List.find? (fun x => groupKey x.label drop == key) [m]).map
            (fun x => filteredMap x.label drop)) (mapFind acc.aggregatedLabels key) := by
        by_cases hk : groupKey m.label drop = key
        · simp [aggStep_labels, mapFind_upsert, hk, List.find?, optOr]
        · have hb : (groupKey m.label drop == key) = false := beq_eq_false_iff_ne.mpr hk
          simp [aggStep_labels, mapFind_upsert, hk, Ne.symm hk, List.find?, optOr, hb]
      rw [hstep, lastByKey, lastByKey]
      rw [show (m :: t).reverse = t.reverse ++ [m] by simp, find?_append, optOr_map,
        optOr_assoc]

theorem aggValue_foldl (drop : List String) (ms : List Metric) (acc : AggResult)
    (key : String) :
    mapFind (List.foldl (aggStep drop) acc ms).aggregatedValue key =
      (if contribs ms drop key = [] then mapFind acc.aggregatedValue key
       else some (findD acc.aggregatedValue key 0 +
         ((contribs ms drop key).map Metric.accValue).sum)) := by
  induction ms generalizing acc with
  | nil => simp [contribs]
  | cons m t ih =>
      obtain ⟨ls, mv⟩ := m
      rw [List.foldl_cons, ih]
      cases mv with
      | gauge v =>
          by_cases hk : groupKey ls drop = key
          · have hc : contribs (⟨ls, .gauge v⟩ :: t) drop key =
                ⟨ls, .gauge v⟩ :: contribs t drop key := by
              simp [contribs, List.filter_cons, hk, Metric.hasNum]
            have hfind : mapFind (aggStep drop acc ⟨ls, .gauge v⟩).aggregatedValue key =
                some (findD acc.aggregatedValue key 0 + v) := by
              rw [aggStep_value_gauge, hk, mapFind_upsert, if_pos rfl]
            have hfd : findD (aggStep drop acc ⟨ls, .gauge v⟩).aggregatedValue key 0 =
                findD acc.aggregatedValue key 0 + v := by
              rw [aggStep_value_gauge, hk, findD_upsert, if_pos rfl]
            rw [hc]
            by_cases ht : contribs t drop key = []
            · simp [ht, hfind, Metric.accValue]
            · simp [ht, hfd, Metric.accValue]
              ring
          · have hc : contribs (⟨ls, .gauge v⟩ :: t) drop key = contribs t drop key := by
              simp [contribs, List.filter_cons, hk]
            have hfind : mapFind (aggStep drop acc ⟨ls, .gauge v⟩).aggregatedValue key =
                mapFind acc.aggregatedValue key := by
              rw [aggStep_value_gauge, mapFind_upsert, if_neg (Ne.symm hk)]
            have hfd : findD (aggStep drop acc ⟨ls, .gauge v⟩).aggregatedValue key 0 =
                findD acc.aggregatedValue key 0 := by
              rw [aggStep_value_gauge, findD_upsert, if_neg (Ne.symm hk)]
            rw [hc, hfind, hfd]
      | counter v =>
          by_cases hk : groupKey ls drop = key
          · have hc : contribs (⟨ls, .counter v⟩ :: t) drop key =
                ⟨ls, .counter v⟩ :: contribs t drop key := by
              simp [contribs, List.filter_cons, hk, Metric.hasNum]
            have hfind : mapFind (aggStep drop acc ⟨ls, .counter v⟩).aggregatedValue key =
                some (findD acc.aggregatedValue key 0 + v) := by
              rw [aggStep_value_counter, hk, mapFind_upsert, if_pos rfl]
            have hfd : findD (aggStep drop acc ⟨ls, .counter v⟩).aggregatedValue key 0 =
                findD acc.aggregatedValue key 0 + v := by
              rw [aggStep_value_counter, hk, findD_upsert, if_pos rfl]
            rw [hc]
            by_cases ht : contribs t drop key = []
            · simp [ht, hfind, Metric.accValue]
            · simp [ht, hfd, Metric.accValue]
              ring
          · have hc : contribs (⟨ls, .counter v⟩ :: t) drop key = contribs t drop key := by
              simp [contribs, List.filter_cons, hk]
            have hfind : mapFind (aggStep drop acc ⟨ls, .counter v⟩).aggregatedValue key =
                mapFind acc.aggregatedValue key := by
              rw [aggStep_value_counter, mapFind_upsert, if_neg (Ne.symm hk)]
            have hfd : findD (aggStep drop acc ⟨ls, .counter v⟩).aggregatedValue key 0 =
                findD acc.aggregatedValue key 0 := by
              rw [aggStep_value_counter, findD_upsert, if_neg (Ne.symm hk)]
            rw [hc, hfind, hfd]
      | untyped v =>
          have hc : contribs (⟨ls, .untyped v⟩ :: t) drop key = contribs t drop key := by
            simp [contribs, List.filter_cons, Metric.hasNum]
          rw [hc, aggStep_value_untyped]

theorem mapFind_foldl_mapStep (pairs : List LabelPair) (acc : List (String × String))
    (n : String) :
    mapFind (List.foldl mapStep acc pairs) n =
      optOr ((List.find? (fun lp => lp.name == n) pairs.reverse).map LabelPair.value)
        (mapFind acc n) := by
  induction pairs generalizing acc with
  | nil => simp [optOr]
  | cons lp t ih =>
      rw [List.foldl_cons, ih]
      rw [show (lp :: t).reverse = t.reverse ++ [lp] by simp, find?_append, optOr_map,
        optOr_assoc]
      congr 1
      by_cases h : lp.name = n
      · simp [mapStep, mapFind_upsert, h, List.find?, optOr]
      · have hb : (lp.name == n) = false := beq_eq_false_iff_ne.mpr h
        simp [mapStep, mapFind_upsert, Ne.symm h, List.find?, optOr, hb]

theorem mapFind_mapsCopy (dst src : List (String × String)) (k : String) :
    mapFind (mapsCopy dst src) k =
      optOr ((List.find? (fun p => p.1 == k) src.reverse).map Prod.snd) (mapFind dst k) := by
  induction src generalizing dst with
  | nil => simp [mapsCopy, optOr]
  | cons p t ih =>
      rw [mapsCopy, List.foldl_cons]
      rw [show List.foldl (fun d q => upsert d q.1 q.2) (upsert dst p.1 p.2) t =
        mapsCopy (upsert dst p.1 p.2) t from rfl, ih]
      rw [show (p :: t).reverse = t.reverse ++ [p] by simp, find?_append, optOr_map,
        optOr_assoc]
      congr 1
      by_cases h : p.1 = k
      · simp [mapFind_upsert, h, List.find?, optOr]
      · have hb : (p.1 == k) = false := beq_eq_false_iff_ne.mpr h
        simp [mapFind_upsert, Ne.symm h, List.find?, optOr, hb]

theorem mapFind_eq_find? {β : Type} (m : List (String × β)) (k : String) :
    mapFind m k = (List.find? (fun q => q.1 == k) m).map Prod.snd := by
  induction m with
  | nil => rfl
  | cons q t ih =>
      by_cases hq : q.1 = k
      · simp [mapFind, List.find?, hq]
      · have hb : (q.1 == k) = false := beq_eq_false_iff_ne.mpr hq
        simp [mapFind, List.find?, hq, hb, ih]

theorem mapFind_of_nodup (src : List (String × String)) (k : String) (h : NodupKeys src) :
    (List.find? (fun p => p.1 == k) src.reverse).map Prod.snd = mapFind src k := by
  induction src with
  | nil => simp [mapFind]
  | cons p t ih =>
      have hmem : p.1 ∉ t.map Prod.fst := by
        have h2 := h
        simp only [NodupKeys, List.map_cons, List.nodup_cons] at h2
        exact h2.1
      have ht : NodupKeys t := by
        have h2 := h
        simp only [NodupKeys, List.map_cons, List.nodup_cons] at h2
        exact h2.2
      rw [show (p :: t).reverse = t.reverse ++ [p] by simp, find?_append, optOr_map, ih ht]
      by_cases hk : p.1 = k
      · have hnone : mapFind t k = none := by
          rw [mapFind_eq_find?]
          rw [List.find?_eq_none.mpr]
          · rfl
          · intro q hq
            simp only [beq_iff_eq]
            intro hqk
            exact hmem (by rw [hk, ← hqk]; exact List.mem_map_of_mem Prod.fst hq)
        rw [hnone]
        simp [optOr, List.find?, hk, mapFind]
      · have hb : (p.1 == k) = false := beq_eq_false_iff_ne.mpr hk
        simp [List.find?, hb, mapFind, hk, optOr_none]

theorem splitAux_snd_length (c : Char) (l : List Char) :
    (splitAux c l).2.length = l.count c := by
  induction l with
  | nil => simp [splitAux]
  | cons a t ih =>
      by_cases h : a = c
      · simp [splitAux, h, ih, List.count_cons]
      · simp [splitAux, h, ih, List.count_cons]

theorem splitAux_join (c : Char) (l : List Char) :
    (splitAux c l).1 ++ ((splitAux c l).2.map (fun s => c :: s)).flatten = l := by
  induction l with
  | nil => simp [splitAux]
  | cons a t ih =>
      by_cases h : a = c
      · simp only [splitAux, h, if_pos rfl]
        simpa using ih
      · simp only [splitAux, if_neg h]
        simpa using ih

theorem splitChar_length (c : Char) (l : List Char) :
    (splitChar c l).length = l.count c + 1 := by
  simp [splitChar, splitAux_snd_length]

theorem splitChar_two (c : Char) (l : List Char) (h : l.count c = 1) :
    ∃ a b, splitChar c l = [a, b] ∧ l = a ++ c :: b := by
  have hlen : (splitAux c l).2.length = 1 := by rw [splitAux_snd_length, h]
  obtain ⟨b, hb⟩ := List.length_eq_one.mp hlen
  refine ⟨(splitAux c l).1, b, ?_, ?_⟩
  · rw [splitChar, hb]
  · have hj := splitAux_join c l
    rw [hb] at hj
    simpa using hj.symm

theorem filteredPairs_nil_drop (labels : List LabelPair) : filteredPairs labels [] = labels := by
  simp [filteredPairs]

theorem buildGroup_dropped (drop : List String) (labels : List LabelPair)
    (h : ∀ lp ∈ labels, lp.name ∈ drop) : buildGroup drop labels = ("", []) := by
  rw [buildGroup_eq]
  have hf : filteredPairs labels drop = [] := by
    rw [filteredPairs, List.filter_eq_nil_iff]
    intro lp hlp
    simp [h lp hlp]
  rw [hf]
  rfl

/-- Claim C1, counterexample: a single untyped observation with value 5
is not conserved by `aggregateMetrics`: the returned value mapping is
empty (sum 0) while the input values sum to 5, because the loop reads
only gauge and counter fields. -/
theorem C1_cex_untyped_dropped :
    ¬ sumVals (aggregateMetrics [⟨[], .untyped 5⟩] []).aggregatedValue =
      (([⟨[], MetricValue.untyped 5⟩] : List Metric).map Metric.numValue).sum := by
  simp [aggregateMetrics, aggStep, Metric.getGauge, Metric.getCounter, sumVals,
    Metric.numValue]

/-- Claim C1 (amended): for every observation list and drop-label set,
the sum of the values of the mapping returned by `aggregateMetrics`
equals the sum of the gauge and counter values of the input
observations; untyped observations contribute nothing. -/
theorem C1_conservation (metrics : List Metric) (drop : List String) :
    sumVals (aggregateMetrics metrics drop).aggregatedValue =
      (metrics.map Metric.accValue).sum := by
  rw [aggregateMetrics, sumVals_foldl]
  simp [sumVals]

/-- Claim C2, counterexample: two observations whose label sets are
equal as sets of pairs but listed in a different order receive
different group keys, refuting the order-independence direction of the
claimed equivalence. -/
theorem C2_cex_order_sensitive :
    ¬ groupKey [⟨"l1", "v1"⟩, ⟨"l2", "v2"⟩] [] = groupKey [⟨"l2", "v2"⟩, ⟨"l1", "v1"⟩] [] ∧
    (filteredPairs [⟨"l1", "v1"⟩, ⟨"l2", "v2"⟩] []).toFinset =
      (filteredPairs [⟨"l2", "v2"⟩, ⟨"l1", "v1"⟩] []).toFinset := by
  decide

/-- Claim C2 (amended): two observations whose label lists, after
removing dropped names, are identical sequences of (name, value) pairs
are assigned the same group key; the key is the serialization of the
surviving pairs in original order, so the same surviving set in a
different order may receive a different key, and unescaped "=" or ","
inside values can make distinct surviving sets collide. -/
theorem C2_key_of_filtered_seq (a b : List LabelPair) (drop : List String)
    (h : filteredPairs a drop = filteredPairs b drop) :
    groupKey a drop = groupKey b drop := by
  rw [groupKey_eq, groupKey_eq, h]

/-- Witness for C2: dropping "ld" makes the two label lists agree as
sequences, so their keys agree. -/
theorem C2_key_witness :
    groupKey [⟨"l1", "v1"⟩, ⟨"ld", "x"⟩] ["ld"] =
      groupKey [⟨"ld", "y"⟩, ⟨"l1", "v1"⟩] ["ld"] :=
  C2_key_of_filtered_seq _ _ _ (by decide)

/-- Claim C4, counterexample: an observation carrying the same label
name twice is not passed through unchanged: the retained label map
keeps a single entry for that name (the later value), even though both
pairs survive filtering. -/
theorem C4_cex_dedup_last_wins :
    mapFind (aggregateMetrics [⟨[⟨"l", "a"⟩, ⟨"l", "b"⟩], .counter 1⟩] []).aggregatedLabels
        "l=a,l=b," = some [("l", "b")] ∧
    (filteredPairs [⟨"l", "a"⟩, ⟨"l", "b"⟩] []).length = 2 := by
  decide

/-- Claim C4 (amended): `aggregateMetrics` is total and never fails on
duplicate label names; the group key string serializes every surviving
pair as provided (duplicates included, in order), while the retained
label map holds, for each name, the value of the last surviving pair
with that name (earlier duplicates are overwritten). -/
theorem C4_duplicate_labels (labels : List LabelPair) (drop : List String) (n : String) :
    mapFind (filteredMap labels drop) n =
      (List.find? (fun lp => lp.name == n) (filteredPairs labels drop).reverse).map
        LabelPair.value ∧
    groupKey labels drop = serializeKey (filteredPairs labels drop) := by
  constructor
  · rw [filteredMap_eq, buildMap, mapFind_foldl_mapStep]
    simp [mapFind, optOr_none]
  · exact groupKey_eq labels drop

/-- Claim C5, counterexample: two observations with distinct filtered
label sets can serialize to the same key (unescaped "=" and "," in a
value); the labels mapping then stores the filtered labels of the last
such observation, not of the first one. -/
theorem C5_cex_last_not_first :
    groupKey [⟨"a", "b,c=d"⟩] [] = groupKey [⟨"a", "b"⟩, ⟨"c", "d"⟩] [] ∧
    mapFind (aggregateMetrics
        [⟨[⟨"a", "b,c=d"⟩], .counter 1⟩, ⟨[⟨"a", "b"⟩, ⟨"c", "d"⟩], .counter 2⟩]
        []).aggregatedLabels (groupKey [⟨"a", "b,c=d"⟩] []) =
      some [("a", "b"), ("c", "d")] ∧
    ¬ [("a", "b"), ("c", "d")] = filteredMap [⟨"a", "b,c=d"⟩] [] := by
  decide

/-- Claim C5 (amended): for every key, the labels mapping returned by
`aggregateMetrics` holds the filtered label set of the last observation
in input order whose group key is that key (and no entry when no
observation produced the key). -/
theorem C5_retained_labels_last (metrics : List Metric) (drop : List String) (key : String) :
    mapFind (aggregateMetrics metrics drop).aggregatedLabels key =
      (lastByKey metrics drop key).map (fun m => filteredMap m.label drop) := by
  rw [aggregateMetrics, aggLabels_foldl]
  simp [mapFind, optOr_none]

theorem C6_fold (drop : List String) (ms : List Metric) (s : ℚ)
    (hdrop : ∀ m ∈ ms, ∀ lp ∈ m.label, lp.name ∈ drop)
    (hnum : ∀ m ∈ ms, m.hasNum = true) :
    List.foldl (aggStep drop) ⟨[("", [])], [("", s)]⟩ ms =
      ⟨[("", [])], [("", s + (ms.map Metric.numValue).sum)]⟩ := by
  induction ms generalizing s with
  | nil => simp
  | cons m t ih =>
      obtain ⟨ls, mv⟩ := m
      have hbg : buildGroup drop ls = ("", []) :=
        buildGroup_dropped drop ls (hdrop ⟨ls, mv⟩ (List.mem_cons_self _ _))
      have hdt : ∀ x ∈ t, ∀ lp ∈ x.label, lp.name ∈ drop :=
        fun x hx => hdrop x (List.mem_cons_of_mem _ hx)
      have hnt : ∀ x ∈ t, x.hasNum = true :=
        fun x hx => hnum x (List.mem_cons_of_mem _ hx)
      cases mv with
      | gauge v =>
          have hstep : aggStep drop ⟨[("", [])], [("", s)]⟩ ⟨ls, .gauge v⟩ =
              ⟨[("", [])], [("", s + v)]⟩ := by
            simp [aggStep, hbg, Metric.getGauge, upsert, findD, mapFind]
          rw [List.foldl_cons, hstep, ih (s + v) hdt hnt]
          simp [Metric.numValue, add_assoc]
      | counter v =>
          have hstep : aggStep drop ⟨[("", [])], [("", s)]⟩ ⟨ls, .counter v⟩ =
              ⟨[("", [])], [("", s + v)]⟩ := by
            simp [aggStep, hbg, Metric.getGauge, Metric.getCounter, upsert, findD, mapFind]
          rw [List.foldl_cons, hstep, ih (s + v) hdt hnt]
          simp [Metric.numValue, add_assoc]
      | untyped v =>
          exact absurd (hnum ⟨ls, .untyped v⟩ (List.mem_cons_self _ _))
            (by simp [Metric.hasNum])

/-- Claim C6, counterexample: a non-empty observation list whose only
observation is untyped, aggregated with its only label name in the
drop set, yields an empty value mapping (no group at all) instead of a
single empty-key group holding the input sum 5. -/
theorem C6_cex_untyped_no_group :
    (aggregateMetrics [⟨[⟨"l", "v"⟩], .untyped 5⟩] ["l"]).aggregatedValue = [] ∧
    (([⟨[⟨"l", "v"⟩], MetricValue.untyped 5⟩] : List Metric).map Metric.numValue).sum = 5 := by
  constructor
  · decide
  · simp [Metric.numValue]

/-- Claim C6 (amended): for every non-empty observation list in which
every observation carries a gauge or counter value, and every drop set
containing all label names occurring in the observations,
`aggregateMetrics` yields exactly one group: the labels mapping binds
only the distinguished empty key to an empty retained label set, and
the value mapping binds only the empty key to the sum of all
observation values. -/
theorem C6_drop_all_single_group (metrics : List Metric) (drop : List String)
    (hne : metrics ≠ [])
    (hdrop : ∀ m ∈ metrics, ∀ lp ∈ m.label, lp.name ∈ drop)
    (hnum : ∀ m ∈ metrics, m.hasNum = true) :
    (aggregateMetrics metrics drop).aggregatedLabels = [("", [])] ∧
    (aggregateMetrics metrics drop).aggregatedValue =
      [("", (metrics.map Metric.numValue).sum)] := by
  obtain ⟨m, t, rfl⟩ := List.exists_cons_of_ne_nil hne
  obtain ⟨ls, mv⟩ := m
  have hbg : buildGroup drop ls = ("", []) :=
    buildGroup_dropped drop ls (hdrop ⟨ls, mv⟩ (List.mem_cons_self _ _))
  have hdt : ∀ x ∈ t, ∀ lp ∈ x.label, lp.name ∈ drop :=
    fun x hx => hdrop x (List.mem_cons_of_mem _ hx)
  have hnt : ∀ x ∈ t, x.hasNum = true :=
    fun x hx => hnum x (List.mem_cons_of_mem _ hx)
  cases mv with
  | gauge v =>
      have hstep : aggStep drop ⟨[], []⟩ ⟨ls, .gauge v⟩ = ⟨[("", [])], [("", 0 + v)]⟩ := by
        simp [aggStep, hbg, Metric.getGauge, upsert, findD, mapFind]
      rw [aggregateMetrics, List.foldl_cons, hstep, C6_fold drop t (0 + v) hdt hnt]
      constructor
      · rfl
      · simp [Metric.numValue, add_assoc]
  | counter v =>
      have hstep : aggStep drop ⟨[], []⟩ ⟨ls, .counter v⟩ = ⟨[("", [])], [("", 0 + v)]⟩ := by
        simp [aggStep, hbg, Metric.getGauge, Metric.getCounter, upsert, findD, mapFind]
      rw [aggregateMetrics, List.foldl_cons, hstep, C6_fold drop t (0 + v) hdt hnt]
      constructor
      · rfl
      · simp [Metric.numValue, add_assoc]
  | untyped v =>
      exact absurd (hnum ⟨ls, .untyped v⟩ (List.mem_cons_self _ _)) (by simp [Metric.hasNum])

/-- Witness for C6: two observations over the dropped label "l"
collapse into the single empty-key group carrying the total sum. -/
theorem C6_drop_all_witness :
    (aggregateMetrics [⟨[⟨"l", "v"⟩], .counter 3⟩, ⟨[⟨"l", "w"⟩], .gauge 4⟩]
        ["l"]).aggregatedLabels = [("", [])] ∧
    (aggregateMetrics [⟨[⟨"l", "v"⟩], .counter 3⟩, ⟨[⟨"l", "w"⟩], .gauge 4⟩]
        ["l"]).aggregatedValue =
      [("", (([⟨[⟨"l", "v"⟩], MetricValue.counter 3⟩,
               ⟨[⟨"l", "w"⟩], MetricValue.gauge 4⟩] : List Metric).map Metric.numValue).sum)] :=
  C6_drop_all_single_group _ _ (by decide) (by decide) (by decide)

/-- Claim C7, counterexample: with an empty drop set, two observations
whose full label sets are equal as sets of pairs but differently
ordered form two separate groups instead of the claimed one group per
distinct label set. -/
theorem C7_cex_order_two_groups :
    ((aggregateMetrics [⟨[⟨"l1", "v1"⟩, ⟨"l2", "v2"⟩], .counter 20⟩,
                        ⟨[⟨"l2", "v2"⟩, ⟨"l1", "v1"⟩], .counter 30⟩]
        []).aggregatedValue).length = 2 ∧
    ([⟨"l1", "v1"⟩, ⟨"l2", "v2"⟩] : List LabelPair).toFinset =
      ([⟨"l2", "v2"⟩, ⟨"l1", "v1"⟩] : List LabelPair).toFinset := by
  decide

/-- Claim C7 (amended): with an empty drop set the group key of an
observation is the serialization of its full label list in original
order, and the value mapping binds a key exactly when some gauge or
counter observation serializes to it, to the sum of the accumulated
values of the observations whose full label lists serialize to that
key (one group per distinct serialization, not per distinct label
set). -/
theorem C7_empty_drop_groups :
    (∀ labels : List LabelPair, groupKey labels [] = serializeKey labels) ∧
    ∀ (metrics : List Metric) (key : String),
      mapFind (aggregateMetrics metrics []).aggregatedValue key =
        (if contribs metrics [] key = [] then none
         else some (((contribs metrics [] key).map Metric.accValue).sum)) := by
  constructor
  · intro labels
    rw [groupKey_eq, filteredPairs_nil_drop]
  · intro metrics key
    rw [aggregateMetrics, aggValue_foldl]
    simp [mapFind, findD]

/-- Claim C8: a family absent from a non-empty include list yields zero
emitted series, and with an empty include list every family proceeds
past filtering (one emitted series per aggregated group). -/
theorem C8_include_filtering (cfg : Config) (fam : MetricFamily) :
    (cfg.includeMetrics ≠ [] → fam.name ∉ cfg.includeMetrics →
      processAndSend cfg fam = []) ∧
    (cfg.includeMetrics = [] →
      (processAndSend cfg fam).length =
        ((aggregateMetrics fam.metric cfg.aggregateWithOutLabels).aggregatedValue).length) := by
  constructor
  · intro hne hab
    have hc : 0 < cfg.includeMetrics.length ∧ fam.name ∉ cfg.includeMetrics :=
      ⟨List.length_pos.mpr hne, hab⟩
    unfold processAndSend
    rw [if_pos hc]
  · intro hemp
    have hc : ¬(0 < cfg.includeMetrics.length ∧ fam.name ∉ cfg.includeMetrics) := by
      simp [hemp]
    simp [processAndSend, hc]

/-- Witness for C8: the family "b" is suppressed by the include list
containing only "a". -/
theorem C8_include_witness :
    processAndSend ⟨["a"], [], "", []⟩ ⟨"b", "h", .counter, []⟩ = [] :=
  (C8_include_filtering ⟨["a"], [], "", []⟩ ⟨"b", "h", .counter, []⟩).1 (by decide) (by decide)

/-- Claim C3: the aggregated groups emitted by `processAndSend` (one
series per entry of the returned value mapping, when the family passes
the include filter) carry the accumulated values, and their kind is
given by the family-type switch: a counter family is emitted as
counter, a gauge family as gauge, and a family of any other kind
(untyped, summary, histogram) is emitted as untyped. -/
theorem C3_kind_passthrough (cfg : Config) (fam : MetricFamily)
    (h : ¬(0 < cfg.includeMetrics.length ∧ fam.name ∉ cfg.includeMetrics)) :
    (fam.type ≠ MetricType.counter → fam.type ≠ MetricType.gauge →
      ∀ s ∈ processAndSend cfg fam, s.kind = ValueKind.untypedV) ∧
    (fam.type = MetricType.counter →
      ∀ s ∈ processAndSend cfg fam, s.kind = ValueKind.counterV) ∧
    (fam.type = MetricType.gauge →
      ∀ s ∈ processAndSend cfg fam, s.kind = ValueKind.gaugeV) ∧
    (processAndSend cfg fam).map (fun s => (s.kind, s.value)) =
      (aggregateMetrics fam.metric cfg.aggregateWithOutLabels).aggregatedValue.map
        (fun p => (emittedKind fam.type, p.2)) := by
  have hmap : (processAndSend cfg fam).map (fun s => (s.kind, s.value)) =
      (aggregateMetrics fam.metric cfg.aggregateWithOutLabels).aggregatedValue.map
        (fun p => (emittedKind fam.type, p.2)) := by
    simp only [processAndSend, h, if_false, List.map_map]
    apply List.map_congr_left
    intro p hp
    cases fam.type <;> rfl
  have hkind : ∀ s ∈ processAndSend cfg fam, s.kind = emittedKind fam.type := by
    intro s hs
    have h1 : (s.kind, s.value) ∈ (processAndSend cfg fam).map (fun x => (x.kind, x.value)) :=
      List.mem_map_of_mem _ hs
    rw [hmap] at h1
    obtain ⟨p, hp, hpe⟩ := List.mem_map.mp h1
    exact (congrArg Prod.fst hpe).symm
  refine ⟨?_, ?_, ?_, hmap⟩
  · intro hnc hng s hs
    have hu : emittedKind fam.type = ValueKind.untypedV := by
      cases htype : fam.type
      · exact absurd htype hnc
      · exact absurd htype hng
      · rfl
      · rfl
      · rfl
    rw [hkind s hs, hu]
  · intro hc s hs
    rw [hkind s hs, hc]
    rfl
  · intro hg s hs
    rw [hkind s hs, hg]
    rfl

/-- Witness for C3: a summary-typed family with one counter-valued
observation passes the empty include filter and is emitted through the
default branch of the switch: the series correspondence holds at this
input, and the one series it emits has kind untyped. -/
theorem C3_kind_witness :
    (processAndSend ⟨[], [], "", []⟩
        ⟨"f", "h", .summary, [⟨[], .counter 7⟩]⟩).map (fun s => (s.kind, s.value)) =
      (aggregateMetrics [⟨[], MetricValue.counter 7⟩] []).aggregatedValue.map
        (fun p => (emittedKind MetricType.summary, p.2)) ∧
    (⟨"f", "h", [], ValueKind.untypedV, 7⟩ : EmittedMetric).kind = ValueKind.untypedV :=
  ⟨(C3_kind_passthrough ⟨[], [], "", []⟩ ⟨"f", "h", .summary, [⟨[], .counter 7⟩]⟩
      (by decide)).2.2.2,
   (C3_kind_passthrough ⟨[], [], "", []⟩ ⟨"f", "h", .summary, [⟨[], .counter 7⟩]⟩
      (by decide)).1 (by decide) (by decide)
     ⟨"f", "h", [], ValueKind.untypedV, 7⟩
     (by simp [processAndSend, aggregateMetrics, aggStep, buildGroup, filterStep, upsert,
       mapFind, findD, mapsCopy, Metric.getGauge, Metric.getCounter, List.foldl])⟩

/-- Claim C9: every configured extra label appears on every emitted
series with its configured value; on a name collision with a retained
label, the extra label's value is the one found. -/
theorem C9_extra_labels_overwrite (cfg : Config) (fam : MetricFamily) (s : EmittedMetric)
    (k v : String) (hnd : NodupKeys cfg.addLabels) (hs : s ∈ processAndSend cfg fam)
    (hk : mapFind cfg.addLabels k = some v) :
    mapFind s.labels k = some v := by
  unfold processAndSend at hs
  by_cases hc : 0 < cfg.includeMetrics.length ∧ fam.name ∉ cfg.includeMetrics
  · rw [if_pos hc] at hs
    exact absurd hs (List.not_mem_nil s)
  · rw [if_neg hc] at hs
    obtain ⟨kv, hkv, rfl⟩ := List.mem_map.mp hs
    show mapFind (mapsCopy _ cfg.addLabels) k = some v
    rw [mapFind_mapsCopy, mapFind_of_nodup _ _ hnd, hk]
    rfl

/-- Witness for C9: the configured extra label env=prod overwrites the
retained label env=dev on the emitted series. -/
theorem C9_extra_labels_witness :
    mapFind (⟨"f", "h", [("env", "prod")], .counterV, 5⟩ : EmittedMetric).labels "env" =
      some "prod" :=
  C9_extra_labels_overwrite ⟨[], [], "", [("env", "prod")]⟩
    ⟨"f", "h", .counter, [⟨[⟨"env", "dev"⟩], .counter 5⟩]⟩
    ⟨"f", "h", [("env", "prod")], .counterV, 5⟩ "env" "prod"
    (by simp [NodupKeys])
    (by simp [processAndSend, aggregateMetrics, aggStep, buildGroup, filterStep, upsert,
      mapFind, findD, mapsCopy, emittedKind, Metric.getGauge, Metric.getCounter,
      List.foldl])
    (by decide)

/-- Claim C10: a configured add-labelValue pair contributes an extra
label exactly when splitting it on "=" yields two segments, which
happens exactly when the pair contains a single "=" character; the
label then binds the text before the "=" to the text after it, and any
other pair is discarded without error, leaving the label map
unchanged. -/
theorem C10_add_label_parsing (m : List (String × String)) (pair : String) :
    ((splitChar '=' pair.data).length = 2 ↔ pair.data.count '=' = 1) ∧
    (∀ k v, splitChar '=' pair.data = [k, v] →
      addLabelStep m pair = upsert m (String.mk k) (String.mk v) ∧
      pair.data = k ++ '=' :: v) ∧
    ((splitChar '=' pair.data).length ≠ 2 → addLabelStep m pair = m) := by
  refine ⟨?_, ?_, ?_⟩
  · rw [splitChar_length]
    omega
  · intro k v hkv
    have hparts : (splitAux '=' pair.data).1 = k ∧ (splitAux '=' pair.data).2 = [v] := by
      rw [splitChar] at hkv
      exact ⟨(List.cons.injEq _ _ _ _).mp hkv |>.1, (List.cons.injEq _ _ _ _).mp hkv |>.2⟩
    constructor
    · rw [addLabelStep, hkv]
    · have hj := splitAux_join '=' pair.data
      rw [hparts.1, hparts.2] at hj
      simpa using hj.symm
  · intro hne
    cases h2 : (splitAux '=' pair.data).2 with
    | nil => simp [addLabelStep, splitChar, h2]
    | cons b r =>
        cases r with
        | nil =>
            exact absurd (by rw [splitChar, h2]; rfl :
              (splitChar '=' pair.data).length = 2) hne
        | cons c r2 => simp [addLabelStep, splitChar, h2]

/-- Witness for C10: "k=v" contributes the label (k, v) and "a=b=c" is
silently discarded. -/
theorem C10_add_label_witness :
    addLabelStep [] "k=v" = upsert [] "k" "v" ∧ addLabelStep [] "a=b=c" = [] := by
  constructor
  · exact ((C10_add_label_parsing [] "k=v").2.1 "k".data "v".data (by decide)).1
  · exact (C10_add_label_parsing [] "a=b=c").2.2 (by decide)

end Aggregator
